import Mathlib

/-!
Verification of the 11th-echo-rust audio transcription pipeline.

Shallow embedding of the core data structures and loops:
* `CircularSampleBuffer` (src/audio.rs): the pre-connect ring buffer.
* `RecordingState` (src/state.rs): the session lifecycle state machine.
* The ElevenLabs client send/read loops (src/network.rs).
* The capture-path accumulation buffer (src/audio.rs, `process_audio_f32`).

Samples are modelled as `Int` (the i16 sample values; none of the verified
properties depend on the 16-bit range except the little-endian byte
serialization, which reduces values mod 2^16 exactly as `i16::to_le_bytes`
does on the two's-complement representation).
-/

/-- Model of `CircularSampleBuffer` from src/audio.rs: a `VecDeque<i16>`
together with its fixed capacity. -/
structure CircularSampleBuffer where
  samples : List Int
  capacity : Nat
  deriving Repr, DecidableEq

namespace CircularSampleBuffer

/-- `CircularSampleBuffer::new` -/
def new (capacity : Nat) : CircularSampleBuffer :=
  { samples := [], capacity := capacity }

/-- `CircularSampleBuffer::push_samples`: early-returns on empty input;
if the incoming block is at least as large as the capacity, the contents
are replaced by the last `capacity` incoming samples; otherwise exactly
`overflow = len + incoming - capacity` (saturating) oldest samples are
drained before appending. -/
def push_samples (b : CircularSampleBuffer) (incoming : List Int) :
    CircularSampleBuffer :=
  if incoming = [] then b
  else if b.capacity ≤ incoming.length then
    { b with samples := incoming.drop (incoming.length - b.capacity) }
  else
    -- overflow = len(samples) + len(incoming) - capacity, saturating at 0
    { b with samples :=
        b.samples.drop (b.samples.length + incoming.length - b.capacity)
          ++ incoming }

/-- `CircularSampleBuffer::pop_chunk`: returns `none` on an empty buffer,
otherwise drains and returns the `min (length, maxLen)` oldest samples.
The second component is the buffer after the call. -/
def pop_chunk (b : CircularSampleBuffer) (maxLen : Nat) :
    Option (List Int) × CircularSampleBuffer :=
  if b.samples = [] then (none, b)
  else
    let len := min b.samples.length maxLen
    (some (b.samples.take len), { b with samples := b.samples.drop len })

/-- `CircularSampleBuffer::push_front_samples`: pushes the chunk's samples
to the front one by one in reverse, which prepends the chunk in order. -/
def push_front_samples (b : CircularSampleBuffer) (chunk : List Int) :
    CircularSampleBuffer :=
  { b with samples := chunk ++ b.samples }

/-- `CircularSampleBuffer::clear` -/
def clear (b : CircularSampleBuffer) : CircularSampleBuffer :=
  { b with samples := [] }

/-- Folding `push_samples` over a sequence of pushed chunks. -/
def pushAll (b : CircularSampleBuffer) (cs : List (List Int)) :
    CircularSampleBuffer :=
  cs.foldl push_samples b

end CircularSampleBuffer

/-- The last `c` elements of a list (all of it when it is shorter). -/
def lastN (c : Nat) (l : List Int) : List Int :=
  l.drop (l.length - c)

theorem lastN_length_le (c : Nat) (l : List Int) : (lastN c l).length ≤ c := by
  simp [lastN]
  omega

theorem lastN_of_length_le (c : Nat) (l : List Int) (h : l.length ≤ c) :
    lastN c l = l := by
  simp [lastN, Nat.sub_eq_zero_of_le h]

theorem lastN_append_lastN (c : Nat) (a b : List Int) :
    lastN c (lastN c a ++ b) = lastN c (a ++ b) := by
  rcases le_or_lt a.length c with h | h
  · rw [lastN_of_length_le c a h]
  · unfold lastN
    rw [List.drop_append_eq_append_drop, List.drop_append_eq_append_drop,
      List.drop_drop]
    simp only [List.length_append, List.length_drop]
    congr 2 <;> omega

namespace CircularSampleBuffer

theorem push_samples_capacity (b : CircularSampleBuffer) (inc : List Int) :
    (b.push_samples inc).capacity = b.capacity := by
  unfold push_samples
  split <;> [rfl; skip]
  split <;> rfl

theorem push_samples_eq_lastN (b : CircularSampleBuffer) (inc : List Int)
    (h : b.samples.length ≤ b.capacity) :
    (b.push_samples inc).samples = lastN b.capacity (b.samples ++ inc) := by
  unfold push_samples
  split
  · next he =>
    subst he
    rw [List.append_nil, lastN_of_length_le _ _ h]
  · split
    · next hc =>
      show inc.drop (inc.length - b.capacity) = _
      unfold lastN
      simp only [List.length_append]
      rw [List.drop_append_eq_append_drop,
        List.drop_eq_nil_of_le (le_refl b.samples.length |>.trans (by omega)),
        List.nil_append]
      congr 1
      omega
    · next hc =>
      show b.samples.drop (b.samples.length + inc.length - b.capacity) ++ inc = _
      unfold lastN
      simp only [List.length_append]
      rw [List.drop_append_of_le_length (by omega)]

theorem pushAll_eq_lastN (cs : List (List Int)) (b : CircularSampleBuffer)
    (h : b.samples.length ≤ b.capacity) :
    (b.pushAll cs).samples = lastN b.capacity (b.samples ++ cs.flatten) := by
  induction cs generalizing b with
  | nil => simp [pushAll, lastN_of_length_le _ _ h]
  | cons x cs ih =>
    have hcap := push_samples_capacity b x
    have hs := push_samples_eq_lastN b x h
    have hlen : (b.push_samples x).samples.length ≤ (b.push_samples x).capacity := by
      rw [hs, hcap]
      exact lastN_length_le _ _
    calc (b.pushAll (x :: cs)).samples
        = ((b.push_samples x).pushAll cs).samples := rfl
      _ = lastN (b.push_samples x).capacity
            ((b.push_samples x).samples ++ cs.flatten) := ih _ hlen
      _ = lastN b.capacity (lastN b.capacity (b.samples ++ x) ++ cs.flatten) := by
            rw [hcap, hs]
      _ = lastN b.capacity ((b.samples ++ x) ++ cs.flatten) :=
            lastN_append_lastN _ _ _
      _ = lastN b.capacity (b.samples ++ (x :: cs).flatten) := by
            rw [List.flatten_cons, List.append_assoc]

end CircularSampleBuffer

/-- C1: For every sequence of push operations on the pre-connect ring buffer,
starting from the empty buffer, after each push the length never exceeds the
capacity and the contents are exactly the most recent `capacity` samples of
everything pushed so far, in order (all of them when fewer were pushed).
The quantification over arbitrary chunk sequences `cs` covers the state after
every individual push. The concrete capacity-5 scenario from the spec is
included. -/
theorem ring_buffer_sliding_window :
    (∀ (c : Nat) (cs : List (List Int)),
      ((CircularSampleBuffer.new c).pushAll cs).samples = lastN c cs.flatten ∧
      ((CircularSampleBuffer.new c).pushAll cs).samples.length ≤ c) ∧
    (((CircularSampleBuffer.new 5).push_samples [1,2,3]).push_samples
        [4,5,6]).samples = [2,3,4,5,6] ∧
    ((((CircularSampleBuffer.new 5).push_samples [1,2,3]).push_samples
        [4,5,6]).push_samples [7,8,9,10,11,12]).samples = [8,9,10,11,12] := by
  refine ⟨fun c cs => ?_, by decide, by decide⟩
  have h := CircularSampleBuffer.pushAll_eq_lastN cs (CircularSampleBuffer.new c)
    (by simp [CircularSampleBuffer.new])
  simp only [CircularSampleBuffer.new, List.nil_append] at h
  exact ⟨h, h ▸ lastN_length_le _ _⟩

/-- C4: `push_front_samples` followed by `pop_chunk` of the chunk's length
returns exactly the pushed chunk (in order) and restores the buffer.
For a non-empty chunk the result is literally `some chunk`; the degenerate
empty chunk is covered by the last two conjuncts (no samples returned, buffer
contents unchanged), since `pop_chunk 0` on an empty buffer returns `none`
rather than `some []`. -/
theorem push_front_pop_chunk_roundtrip
    (b : CircularSampleBuffer) (chunk : List Int) :
    (chunk ≠ [] →
      (b.push_front_samples chunk).pop_chunk chunk.length = (some chunk, b)) ∧
    ((b.push_front_samples chunk).pop_chunk chunk.length).2 = b ∧
    ((b.push_front_samples chunk).pop_chunk chunk.length).1.getD [] = chunk := by
  have key : chunk ≠ [] →
      (b.push_front_samples chunk).pop_chunk chunk.length = (some chunk, b) := by
    intro hne
    unfold CircularSampleBuffer.push_front_samples CircularSampleBuffer.pop_chunk
    rw [if_neg (by simp [hne])]
    simp only [List.length_append]
    rw [min_eq_right (by omega), List.take_append_of_le_length le_rfl,
      List.take_length, List.drop_append_of_le_length le_rfl, List.drop_length,
      List.nil_append]
  refine ⟨key, ?_, ?_⟩ <;> rcases eq_or_ne chunk [] with he | he
  · subst he
    unfold CircularSampleBuffer.push_front_samples CircularSampleBuffer.pop_chunk
    split
    · rfl
    · simp
  · rw [key he]
  · subst he
    unfold CircularSampleBuffer.push_front_samples CircularSampleBuffer.pop_chunk
    split
    · rfl
    · simp
  · rw [key he]
    rfl

/-- C4 witness at a concrete buffer and chunk. -/
theorem push_front_pop_chunk_roundtrip_witness :
    CircularSampleBuffer.pop_chunk
        (CircularSampleBuffer.push_front_samples ⟨[10, 20], 5⟩ [7, 8]) 2
      = (some [7, 8], ⟨[10, 20], 5⟩) :=
  (push_front_pop_chunk_roundtrip ⟨[10, 20], 5⟩ [7, 8]).1 (by decide)

/-- C10: `pop_chunk maxLen` returns `none` iff the buffer is empty; on a
non-empty buffer it returns the `min (length, maxLen)` oldest samples in
order and removes exactly those; in particular `pop_chunk 0` on a non-empty
buffer returns `some []` and leaves the buffer unchanged. -/
theorem pop_chunk_spec (b : CircularSampleBuffer) (m : Nat) :
    ((b.pop_chunk m).1 = none ↔ b.samples = []) ∧
    (b.samples ≠ [] →
      (b.pop_chunk m).1 = some (b.samples.take (min b.samples.length m)) ∧
      (b.pop_chunk m).2.samples = b.samples.drop (min b.samples.length m)) ∧
    (b.samples ≠ [] → (b.pop_chunk 0).1 = some [] ∧ (b.pop_chunk 0).2 = b) := by
  unfold CircularSampleBuffer.pop_chunk
  rcases eq_or_ne b.samples [] with he | he
  · simp [he]
  · refine ⟨by simp [he], by simp [he], fun _ => ?_⟩
    rw [if_neg he]
    simp

/-- C10 witness at a concrete buffer. -/
theorem pop_chunk_spec_witness :
    (CircularSampleBuffer.pop_chunk ⟨[1, 2, 3], 5⟩ 2).1 = some [1, 2] ∧
    (CircularSampleBuffer.pop_chunk ⟨[1, 2, 3], 5⟩ 0).1 = some [] := by
  have h := pop_chunk_spec ⟨[1, 2, 3], 5⟩ 2
  exact ⟨((h.2.1 (by decide)).1).trans (by decide), (h.2.2 (by decide)).1⟩

/-- Model of `RecordingState` from src/state.rs. -/
inductive RecordingState where
  | idle
  | bufferingPreConnect
  | connecting
  | recording
  | finalizing (pending_injections : Nat)
  | error (msg : String)
  deriving Repr, DecidableEq

namespace RecordingState

/-- `RecordingState::is_active` -/
def is_active : RecordingState → Bool
  | bufferingPreConnect | connecting | recording | finalizing _ => true
  | _ => false

/-- `RecordingState::can_start` -/
def can_start : RecordingState → Bool
  | idle | error _ => true
  | _ => false

/-- `RecordingState::can_stop` -/
def can_stop : RecordingState → Bool
  | bufferingPreConnect | connecting | recording => true
  | _ => false

/-- `RecordingState::is_finalizing` -/
def is_finalizing : RecordingState → Bool
  | finalizing _ => true
  | _ => false

/-- `RecordingState::transition_to_connecting` -/
def transition_to_connecting : RecordingState → RecordingState
  | bufferingPreConnect => connecting
  | s => s

/-- `RecordingState::transition_to_recording` -/
def transition_to_recording : RecordingState → RecordingState
  | bufferingPreConnect | connecting => recording
  | s => s

/-- `RecordingState::transition_to_finalizing`: a no-op when already
`Finalizing`, otherwise enters `Finalizing { pending_injections: 0 }`. -/
def transition_to_finalizing : RecordingState → RecordingState
  | finalizing n => finalizing n
  | _ => finalizing 0

/-- `RecordingState::begin_injection` -/
def begin_injection : RecordingState → RecordingState
  | finalizing n => finalizing (n + 1)
  | s => s

/-- `RecordingState::finish_injection` (`saturating_sub`) -/
def finish_injection : RecordingState → RecordingState
  | finalizing n => finalizing (n - 1)
  | s => s

/-- `RecordingState::transition_to_idle`: unconditional. -/
def transition_to_idle (_ : RecordingState) : RecordingState := idle

end RecordingState

/-- C8: `transition_to_finalizing` is idempotent, and on a state already of
the form `Finalizing { pending_injections := n }` it leaves the state —
including the counter `n` — unchanged. -/
theorem transition_to_finalizing_idempotent :
    (∀ s : RecordingState,
      s.transition_to_finalizing.transition_to_finalizing
        = s.transition_to_finalizing) ∧
    (∀ n : Nat,
      (RecordingState.finalizing n).transition_to_finalizing
        = RecordingState.finalizing n) := by
  constructor
  · intro s
    cases s <;> rfl
  · intro n
    rfl

/-- The `AppCommand::StartRecording` branch of the orchestrator loop
(src/main.rs): when an active session exists whose state does not allow
starting, the command is rejected (`continue`): the session and its state
are untouched and no capture or network task is started. Otherwise a fresh
session is constructed with state `BufferingPreConnect` and the capture and
network tasks are started (the returned flag). -/
def handleStartRecording (active : Option RecordingState) :
    Option RecordingState × Bool :=
  match active with
  | some st =>
      if st.can_start then (some .bufferingPreConnect, true)
      else (some st, false)
  | none => (some .bufferingPreConnect, true)

/-- C6: `StartRecording` while the active session's state is `Recording` or
`Finalizing` (any pending count) — states where `can_start` is false — is
rejected: no session is constructed, no tasks start, the state is unchanged. -/
theorem start_recording_rejected (st : RecordingState)
    (h : st = RecordingState.recording ∨
         ∃ n, st = RecordingState.finalizing n) :
    st.can_start = false ∧ handleStartRecording (some st) = (some st, false) := by
  rcases h with h | ⟨n, h⟩ <;> subst h <;>
    simp [RecordingState.can_start, handleStartRecording]

/-- C6 witness: rejection in the `Recording` state and in `Finalizing {2}`. -/
theorem start_recording_rejected_witness :
    (RecordingState.can_start .recording = false ∧
      handleStartRecording (some .recording) = (some .recording, false)) ∧
    (RecordingState.can_start (.finalizing 2) = false ∧
      handleStartRecording (some (.finalizing 2))
        = (some (.finalizing 2), false)) :=
  ⟨start_recording_rejected .recording (Or.inl rfl),
   start_recording_rejected (.finalizing 2) (Or.inr ⟨2, rfl⟩)⟩

/-! ### Session lifecycle (one recording session, src/main.rs)

The shared `Mutex<RecordingState>` is mutated by three concurrent parties:
the network task (src/main.rs:141-169 around `client.run`), the
injection-consumer task (src/main.rs:171-214) and the orchestrator loop
itself (`StopRecording` handler and the finalize branch). Each lock-guarded
critical section is one atomic event of the transition system below; the
split of the connect-error path (`netErrorSet`/`netErrorSend`) and of the
injection-consumer epilogue (`loopEndTrue`/`loopEndSend`) mirrors the fact
that the lock is released between the state update and the channel send.
`txtQueue` counts transcripts forwarded but not yet consumed, `finQueue`
counts finalize signals sent but not yet processed, and `closed` records
that the orchestrator already tore the session down
(`active_session.take()` returns `None` afterwards, so a second finalize
signal does not touch the state again). -/

/-- Control position of the injection-consumer task. -/
inductive InjPhase where
  | draining | injecting | checkedSend | done
  deriving Repr, DecidableEq

/-- Control position of the network task. -/
inductive NetPhase where
  | running | returnedOk | erroredPending | finished
  deriving Repr, DecidableEq

/-- One recording session together with its tasks and pending signals. -/
structure SessionSys where
  recState : RecordingState
  injPhase : InjPhase
  netPhase : NetPhase
  txtQueue : Nat
  finQueue : Nat
  closed : Bool
  deriving Repr, DecidableEq

/-- The session as constructed by the `StartRecording` handler. -/
def SessionSys.init : SessionSys :=
  { recState := .bufferingPreConnect, injPhase := .draining, netPhase := .running,
    txtQueue := 0, finQueue := 0, closed := false }

/-- One atomic event of the session lifecycle (src/main.rs). -/
inductive SessionStep : SessionSys → SessionSys → Prop where
  /-- Network task start: `transition_to_connecting` (src/main.rs:142-145). -/
  | netConnecting (s : SessionSys) (h : s.netPhase = .running) :
      SessionStep s { s with recState := s.recState.transition_to_connecting }
  /-- A final transcript is forwarded while the client runs. -/
  | produceText (s : SessionSys) (h : s.netPhase = .running) :
      SessionStep s { s with txtQueue := s.txtQueue + 1 }
  /-- `client.run` returns `Err` (connect failure): the state is set to
  `Error` under the lock (src/main.rs:148-152); the text channel closes. -/
  | netErrorSet (s : SessionSys) (h : s.netPhase = .running) :
      SessionStep s { s with recState := .error "Network client failed",
                             netPhase := .erroredPending }
  /-- ... then the finalize signal is sent (src/main.rs:153). -/
  | netErrorSend (s : SessionSys) (h : s.netPhase = .erroredPending) :
      SessionStep s { s with finQueue := s.finQueue + 1,
                             netPhase := .finished }
  /-- `client.run` returns `Ok`: the text channel closes. -/
  | netClosed (s : SessionSys) (h : s.netPhase = .running) :
      SessionStep s { s with netPhase := .returnedOk }
  /-- Post-run transition (src/main.rs:157-166): `transition_to_finalizing`
  only from `BufferingPreConnect`/`Connecting`/`Recording` — exactly the
  states where `can_stop` holds. -/
  | netFinalize (s : SessionSys) (h : s.netPhase = .returnedOk) :
      SessionStep s { s with
        recState := if s.recState.can_stop then s.recState.transition_to_finalizing else s.recState,
        netPhase := .finished }
  /-- The injection consumer dequeues a transcript:
  `transition_to_recording` then `begin_injection` under one lock
  (src/main.rs:185-189); the injection itself is now in flight. -/
  | takeText (s : SessionSys) (h : s.injPhase = .draining)
      (ht : 0 < s.txtQueue) :
      SessionStep s { s with
        recState := s.recState.transition_to_recording.begin_injection,
        txtQueue := s.txtQueue - 1, injPhase := .injecting }
  /-- The in-flight injection completes: `finish_injection`
  (src/main.rs:197-198). -/
  | injectDone (s : SessionSys) (h : s.injPhase = .injecting) :
      SessionStep s { s with recState := s.recState.finish_injection,
                             injPhase := .draining }
  /-- The transcript channel is closed and drained; `should_finalize` is
  computed under the lock (src/main.rs:201-209) and is true. -/
  | loopEndTrue (s : SessionSys) (h : s.injPhase = .draining)
      (ht : s.txtQueue = 0) (hn : s.netPhase ≠ .running)
      (hr : s.recState = .finalizing 0) :
      SessionStep s { s with injPhase := .checkedSend }
  /-- ... and the finalize signal is then sent (src/main.rs:211-213). -/
  | loopEndSend (s : SessionSys) (h : s.injPhase = .checkedSend) :
      SessionStep s { s with finQueue := s.finQueue + 1, injPhase := .done }
  /-- `should_finalize` is false: the injection task simply ends. -/
  | loopEndFalse (s : SessionSys) (h : s.injPhase = .draining)
      (ht : s.txtQueue = 0) (hn : s.netPhase ≠ .running)
      (hr : s.recState ≠ .finalizing 0) :
      SessionStep s { s with injPhase := .done }
  /-- The `StopRecording` handler (src/main.rs:228-240):
  `transition_to_finalizing` when `can_stop`, otherwise only logging. -/
  | stopCmd (s : SessionSys) :
      SessionStep s { s with
        recState := if s.recState.can_stop then s.recState.transition_to_finalizing else s.recState }
  /-- The orchestrator processes a finalize signal (src/main.rs:101-107):
  `active_session.take()` succeeds only the first time; then
  `transition_to_idle`. -/
  | finalizeEvt (s : SessionSys) (h : 0 < s.finQueue) :
      SessionStep s { s with
        recState := if s.closed then s.recState else s.recState.transition_to_idle,
        finQueue := s.finQueue - 1, closed := true }

/-- States reachable from a freshly started session. -/
inductive SessionReachable : SessionSys → Prop where
  | init : SessionReachable SessionSys.init
  | step {s t : SessionSys} :
      SessionReachable s → SessionStep s t → SessionReachable t

/-- The state is `Idle` or `Error`. -/
def ErrOrIdle (r : RecordingState) : Prop :=
  r = .idle ∨ ∃ m, r = .error m

/-- Inductive invariant: a pending finalize signal can only coexist with an
`Error`/`Idle` state or with `Finalizing {0}` after the injection consumer
has terminated; between the `should_finalize` check and the send the state
is pinned at `Finalizing {0}`; after a connect error the state stays at
`Error`/`Idle`. -/
def SessionInv (s : SessionSys) : Prop :=
  (0 < s.finQueue →
    ErrOrIdle s.recState ∨ (s.recState = .finalizing 0 ∧ s.injPhase = .done)) ∧
  (s.netPhase = .erroredPending → ErrOrIdle s.recState) ∧
  (s.injPhase = .checkedSend →
    s.recState = .finalizing 0 ∧ s.finQueue = 0 ∧
    s.netPhase ≠ .running ∧ s.netPhase ≠ .erroredPending)

theorem errOrIdle_idle : ErrOrIdle .idle := Or.inl rfl

theorem errOrIdle_error (m : String) : ErrOrIdle (.error m) := Or.inr ⟨m, rfl⟩

theorem errOrIdle_not_finalizing {r : RecordingState} (h : ErrOrIdle r)
    (n : Nat) : r ≠ .finalizing n := by
  rcases h with h | ⟨m, h⟩ <;> subst h <;> intro hc <;> cases hc

theorem tconn_fix {r : RecordingState} (h : ErrOrIdle r) :
    r.transition_to_connecting = r := by
  rcases h with h | ⟨m, h⟩ <;> subst h <;> rfl

theorem toRec_begin_fix {r : RecordingState} (h : ErrOrIdle r) :
    r.transition_to_recording.begin_injection = r := by
  rcases h with h | ⟨m, h⟩ <;> subst h <;> rfl

theorem finish_fix {r : RecordingState} (h : ErrOrIdle r) :
    r.finish_injection = r := by
  rcases h with h | ⟨m, h⟩ <;> subst h <;> rfl

theorem stopGuard_fix {r : RecordingState} (h : ErrOrIdle r) :
    (if r.can_stop then r.transition_to_finalizing else r) = r := by
  rcases h with h | ⟨m, h⟩ <;> subst h <;> rfl

theorem sessionInv_init : SessionInv SessionSys.init :=
  ⟨fun h => absurd h (by decide), fun h => absurd h (by decide),
   fun h => absurd h (by decide)⟩

theorem sessionInv_step {s t : SessionSys} (hinv : SessionInv s)
    (hstep : SessionStep s t) : SessionInv t := by
  obtain ⟨h1, h2, h3⟩ := hinv
  cases hstep with
  | netConnecting h =>
      refine ⟨fun hq => ?_, fun hp => absurd (h.symm.trans hp) (by decide),
        fun hc => absurd h (h3 hc).2.2.1⟩
      rcases h1 hq with hr | ⟨hr, hi⟩
      · refine Or.inl ?_
        show ErrOrIdle s.recState.transition_to_connecting
        rw [tconn_fix hr]
        exact hr
      · refine Or.inr ⟨?_, hi⟩
        show s.recState.transition_to_connecting = _
        simp only [hr]
        rfl
  | produceText h => exact ⟨h1, h2, h3⟩
  | netErrorSet h =>
      exact ⟨fun hq => Or.inl (errOrIdle_error _), fun hp => errOrIdle_error _,
        fun hc => absurd h (h3 hc).2.2.1⟩
  | netErrorSend h =>
      exact ⟨fun hq => Or.inl (h2 h), fun hp => NetPhase.noConfusion hp,
        fun hc => absurd h (h3 hc).2.2.2⟩
  | netClosed h =>
      exact ⟨h1, fun hp => NetPhase.noConfusion hp,
        fun hc => ⟨(h3 hc).1, (h3 hc).2.1, fun hx => NetPhase.noConfusion hx,
          fun hx => NetPhase.noConfusion hx⟩⟩
  | netFinalize h =>
      refine ⟨fun hq => ?_, fun hp => NetPhase.noConfusion hp, fun hc => ?_⟩
      · rcases h1 hq with hr | ⟨hr, hi⟩
        · refine Or.inl ?_
          show ErrOrIdle
            (if s.recState.can_stop then s.recState.transition_to_finalizing
             else s.recState)
          rw [stopGuard_fix hr]
          exact hr
        · refine Or.inr ⟨?_, hi⟩
          show (if s.recState.can_stop then s.recState.transition_to_finalizing
                else s.recState) = _
          simp only [hr]
          rfl
      · refine ⟨?_, (h3 hc).2.1, fun hx => NetPhase.noConfusion hx,
          fun hx => NetPhase.noConfusion hx⟩
        show (if s.recState.can_stop then s.recState.transition_to_finalizing
              else s.recState) = _
        simp only [(h3 hc).1]
        rfl
  | takeText h ht =>
      refine ⟨fun hq => ?_, fun hp => ?_, fun hc => InjPhase.noConfusion hc⟩
      · rcases h1 hq with hr | ⟨hr, hi⟩
        · refine Or.inl ?_
          show ErrOrIdle s.recState.transition_to_recording.begin_injection
          rw [toRec_begin_fix hr]
          exact hr
        · exact absurd (h.symm.trans hi) (by decide)
      · have hr := h2 hp
        show ErrOrIdle s.recState.transition_to_recording.begin_injection
        rw [toRec_begin_fix hr]
        exact hr
  | injectDone h =>
      refine ⟨fun hq => ?_, fun hp => ?_, fun hc => InjPhase.noConfusion hc⟩
      · rcases h1 hq with hr | ⟨hr, hi⟩
        · refine Or.inl ?_
          show ErrOrIdle s.recState.finish_injection
          rw [finish_fix hr]
          exact hr
        · exact absurd (h.symm.trans hi) (by decide)
      · have hr := h2 hp
        show ErrOrIdle s.recState.finish_injection
        rw [finish_fix hr]
        exact hr
  | loopEndTrue h ht hn hr =>
      have hq0 : s.finQueue = 0 := by
        by_contra hne
        rcases h1 (Nat.pos_of_ne_zero hne) with hx | ⟨hx, hi⟩
        · exact absurd hr (errOrIdle_not_finalizing hx 0)
        · exact absurd (h.symm.trans hi) (by decide)
      refine ⟨fun hq => ?_, fun hp => h2 hp, fun _ => ⟨hr, hq0, hn,
        fun hp => absurd hr (errOrIdle_not_finalizing (h2 hp) 0)⟩⟩
      exact absurd hq0 (Nat.pos_iff_ne_zero.mp hq)
  | loopEndSend h =>
      exact ⟨fun hq => Or.inr ⟨(h3 h).1, rfl⟩, fun hp => absurd hp (h3 h).2.2.2,
        fun hc => InjPhase.noConfusion hc⟩
  | loopEndFalse h ht hn hr =>
      refine ⟨fun hq => ?_, fun hp => h2 hp, fun hc => InjPhase.noConfusion hc⟩
      rcases h1 hq with hx | ⟨hx, hi⟩
      · exact Or.inl hx
      · exact absurd hx hr
  | stopCmd =>
      refine ⟨fun hq => ?_, fun hp => ?_, fun hc => ?_⟩
      · rcases h1 hq with hr | ⟨hr, hi⟩
        · refine Or.inl ?_
          show ErrOrIdle
            (if s.recState.can_stop then s.recState.transition_to_finalizing
             else s.recState)
          rw [stopGuard_fix hr]
          exact hr
        · refine Or.inr ⟨?_, hi⟩
          show (if s.recState.can_stop then s.recState.transition_to_finalizing
                else s.recState) = _
          simp only [hr]
          rfl
      · have hr := h2 hp
        show ErrOrIdle
          (if s.recState.can_stop then s.recState.transition_to_finalizing
           else s.recState)
        rw [stopGuard_fix hr]
        exact hr
      · refine ⟨?_, (h3 hc).2.1, (h3 hc).2.2.1, (h3 hc).2.2.2⟩
        show (if s.recState.can_stop then s.recState.transition_to_finalizing
              else s.recState) = _
        simp only [(h3 hc).1]
        rfl
  | finalizeEvt h =>
      refine ⟨fun hq => ?_, fun hp => ?_, fun hc => ?_⟩
      · have hq1 : 0 < s.finQueue - 1 := hq
        by_cases hcl : s.closed = true
        · rcases h1 (by omega) with hx | ⟨hx, hi⟩
          · refine Or.inl ?_
            show ErrOrIdle
              (if s.closed = true then s.recState
               else s.recState.transition_to_idle)
            rw [if_pos hcl]
            exact hx
          · refine Or.inr ⟨?_, hi⟩
            show (if s.closed = true then s.recState
                  else s.recState.transition_to_idle) = _
            rw [if_pos hcl, hx]
        · refine Or.inl ?_
          show ErrOrIdle
            (if s.closed = true then s.recState
             else s.recState.transition_to_idle)
          rw [if_neg hcl]
          exact errOrIdle_idle
      · have hr := h2 hp
        by_cases hcl : s.closed = true
        · show ErrOrIdle
            (if s.closed = true then s.recState
             else s.recState.transition_to_idle)
          rw [if_pos hcl]
          exact hr
        · show ErrOrIdle
            (if s.closed = true then s.recState
             else s.recState.transition_to_idle)
          rw [if_neg hcl]
          exact errOrIdle_idle
      · have h0 := (h3 hc).2.1
        rw [h0] at h
        exact absurd h (lt_irrefl 0)

theorem sessionInv_reachable {s : SessionSys} (h : SessionReachable s) :
    SessionInv s := by
  induction h with
  | init => exact sessionInv_init
  | step _ hstep ih => exact sessionInv_step ih hstep

/-- C3: along every execution of a recording session, no event ever moves
the shared state from `Finalizing {pending_injections := n+1}` to `Idle`:
the session returns to `Idle` only once the pending-injection counter is
zero and finalization was signalled. -/
theorem finalization_gating {s t : SessionSys} (hs : SessionReachable s)
    (hstep : SessionStep s t) (n : Nat)
    (hrec : s.recState = .finalizing (n + 1)) : t.recState ≠ .idle := by
  cases hstep with
  | netConnecting h =>
      simp [hrec, RecordingState.transition_to_connecting]
  | produceText h => simp [hrec]
  | netErrorSet h => simp
  | netErrorSend h => simp [hrec]
  | netClosed h => simp [hrec]
  | netFinalize h =>
      simp [hrec, RecordingState.can_stop]
  | takeText h ht =>
      simp [hrec, RecordingState.transition_to_recording,
        RecordingState.begin_injection]
  | injectDone h => simp [hrec, RecordingState.finish_injection]
  | loopEndTrue h ht hn hr => simp [hrec]
  | loopEndSend h => simp [hrec]
  | loopEndFalse h ht hn hr => simp [hrec]
  | stopCmd => simp [hrec, RecordingState.can_stop]
  | finalizeEvt h =>
      rcases (sessionInv_reachable hs).1 h with hx | ⟨hx, _⟩
      · exact absurd hrec (errOrIdle_not_finalizing hx (n + 1))
      · rw [hrec] at hx
        cases hx

/-- C3 witness: a concrete reachable session in `Finalizing {1}` (stop
requested, one transcript forwarded and taken, injection in flight) and the
completion step of that injection, which lands in `Finalizing {0}`, not
`Idle`. -/
theorem finalization_gating_witness :
    ({ recState := .finalizing 0, injPhase := .draining, netPhase := .running,
       txtQueue := 0, finQueue := 0, closed := false } : SessionSys).recState
      ≠ .idle := by
  have h0 : SessionReachable
      { recState := .finalizing 0, injPhase := .draining, netPhase := .running,
        txtQueue := 1, finQueue := 0, closed := false } :=
    .step (.step .init (.stopCmd SessionSys.init)) (.produceText _ rfl)
  have h1 : SessionReachable
      { recState := .finalizing 1, injPhase := .injecting, netPhase := .running,
        txtQueue := 0, finQueue := 0, closed := false } :=
    .step h0 (.takeText _ rfl (by decide))
  exact finalization_gating h1 (.injectDone _ rfl) 0 rfl

/-! ### Network protocol (src/network.rs)

The client exchanges JSON text frames over the websocket. Frames are
modelled by their JSON content (a small JSON value type standing for
`serde_json::Value`); the websocket transport and `serde_json`
serialization are the library boundary. -/

/-- JSON values (`serde_json::Value`). -/
inductive Json where
  | null
  | bool (b : Bool)
  | num (n : Int)
  | str (s : String)
  | arr (elems : List Json)
  | obj (fields : List (String × Json))

namespace Json

/-- `Value::get(key)` on an object (object keys are unique in a
`serde_json` map, so first-match lookup is the map lookup). -/
def get (j : Json) (key : String) : Option Json :=
  match j with
  | .obj fields => (fields.find? (fun f => f.1 == key)).map (fun f => f.2)
  | _ => none

/-- `Value::as_str` -/
def asStr : Json → Option String
  | .str s => some s
  | _ => none

end Json

/-- One inbound websocket message as seen by the read task
(src/network.rs:77-111): a text frame together with its `serde_json`
parse result (`none` when parsing fails), a close frame, a read error,
or any other frame kind (ignored). -/
inductive InboundMsg where
  | textMsg (parsed : Option Json)
  | closeMsg
  | errMsg
  | otherMsg

/-- The read task's handling of one parsed text frame
(src/network.rs:82-97): dispatch on the `type` field;
`partial_transcript` is observed but not forwarded; `final_transcript`
forwards the `text` field when it is a non-empty string. Returns the
text sent to `text_tx`, if any. -/
def handleTranscriptEvent (j : Json) : Option String :=
  match (j.get "type").bind Json.asStr with
  | none => none
  | some t =>
      if t = "partial_transcript" then none
      else if t = "final_transcript" then
        match (j.get "text").bind Json.asStr with
        | none => none
        | some content => if content = "" then none else some content
      else none

/-- The read task's loop (src/network.rs:78-110): processes messages in
order, stops at a close frame or a read error, and returns the texts
forwarded to `text_tx` in order. -/
def readLoop : List InboundMsg → List String
  | [] => []
  | .textMsg parsed :: rest =>
      (match parsed with
       | some j => (handleTranscriptEvent j).toList
       | none => []) ++ readLoop rest
  | .closeMsg :: _ => []
  | .errMsg :: _ => []
  | .otherMsg :: rest => readLoop rest

/-- Modelled from the spec: "Only `final` events with non-empty text are
forwarded downstream" — an event is forwarded exactly when its `type` is
`final_transcript` and its `text` field is a non-empty string. Stated
independently of the code's control flow, for comparison with
`handleTranscriptEvent`. -/
def specForwardedTranscript (j : Json) : Option String :=
  match (j.get "type").bind Json.asStr, (j.get "text").bind Json.asStr with
  | some t, some content =>
      if t = "final_transcript" ∧ content ≠ "" then some content else none
  | _, _ => none

theorem handleTranscriptEvent_eq_spec (j : Json) :
    handleTranscriptEvent j = specForwardedTranscript j := by
  unfold handleTranscriptEvent specForwardedTranscript
  rcases htype : (j.get "type").bind Json.asStr with _ | t <;>
    rcases htext : (j.get "text").bind Json.asStr with _ | content
  · rfl
  · rfl
  · by_cases hp : t = "partial_transcript" <;>
      by_cases hf : t = "final_transcript" <;>
      simp [hp, hf]
  · by_cases hp : t = "partial_transcript" <;>
      by_cases hf : t = "final_transcript" <;>
      by_cases hc : content = "" <;>
      simp [hp, hf, hc]

/-- C5: for every sequence of parsed inbound transcript events, the read
loop forwards exactly the `final_transcript` events with a non-empty
`text` string, in the order received; `partial_transcript` events and
final events with empty or missing text are never forwarded. -/
theorem final_transcripts_forwarded (js : List Json) :
    readLoop (js.map (fun j => InboundMsg.textMsg (some j)))
      = js.filterMap specForwardedTranscript := by
  induction js with
  | nil => rfl
  | cons j js ih =>
      rcases h : specForwardedTranscript j with _ | txt <;>
        simp [readLoop, handleTranscriptEvent_eq_spec, h, ih]

/-- The RFC 4648 standard base64 alphabet, as used by
`base64::engine::general_purpose::STANDARD`. -/
def b64Alphabet : List Char :=
  "ABCDEFGHIJKLMNOPQRSTUVWXYZabcdefghijklmnopqrstuvwxyz0123456789+/".toList

def b64Char (n : Nat) : Char := b64Alphabet.getD n '='

def b64Value (c : Char) : Nat := b64Alphabet.indexOf c

/-- Standard base64 with `=` padding over byte values, three bytes per
four output characters (models `STANDARD.encode`). -/
def base64EncodeChars : List Nat → List Char
  | [] => []
  | [b0] => [b64Char (b0 / 4), b64Char (b0 % 4 * 16), '=', '=']
  | [b0, b1] => [b64Char (b0 / 4), b64Char (b0 % 4 * 16 + b1 / 16),
                 b64Char (b1 % 16 * 4), '=']
  | b0 :: b1 :: b2 :: rest =>
      b64Char (b0 / 4) :: b64Char (b0 % 4 * 16 + b1 / 16) ::
      b64Char (b1 % 16 * 4 + b2 / 64) :: b64Char (b2 % 64) ::
      base64EncodeChars rest

def base64Encode (bytes : List Nat) : String :=
  String.mk (base64EncodeChars bytes)

/-- Standard base64 decoding (the encoder's inverse, used to verify that
`base64EncodeChars` is the standard encoding). -/
def base64DecodeChars : List Char → List Nat
  | c0 :: c1 :: c2 :: c3 :: rest =>
      if c2 = '=' then [b64Value c0 * 4 + b64Value c1 / 16]
      else if c3 = '=' then
        [b64Value c0 * 4 + b64Value c1 / 16,
         b64Value c1 % 16 * 16 + b64Value c2 / 4]
      else
        [b64Value c0 * 4 + b64Value c1 / 16,
         b64Value c1 % 16 * 16 + b64Value c2 / 4,
         b64Value c2 % 4 * 64 + b64Value c3] ++ base64DecodeChars rest
  | _ => []

def base64Decode (s : String) : List Nat := base64DecodeChars s.toList

/-- `i16::to_le_bytes` on the two's-complement representation: the value
mod 2^16, low byte first. -/
def i16ToLeBytes (s : Int) : List Nat :=
  [(s % 65536).toNat % 256, (s % 65536).toNat / 256]

/-- Little-endian two's-complement read-back of an i16 (the serializer's
inverse, used to verify `i16ToLeBytes`). -/
def leBytesToI16 : List Nat → Int
  | [lo, hi] =>
      if 32768 ≤ lo + 256 * hi then (lo + 256 * hi : Int) - 65536
      else (lo + 256 * hi : Int)
  | _ => 0

/-- `chunk.iter().flat_map(|&s| s.to_le_bytes())` (src/network.rs:132). -/
def chunkLeBytes (chunk : List Int) : List Nat :=
  chunk.flatMap i16ToLeBytes

/-- The outbound audio frame (src/network.rs:132-139). -/
def audioFrame (chunk : List Int) : Json :=
  .obj [("type", .str "audio"),
        ("data", .str (base64Encode (chunkLeBytes chunk)))]

/-- The end-of-stream frame (src/network.rs:119,148). -/
def endStreamFrame : Json := .obj [("type", .str "end_stream")]

def isEndStream : Json → Bool
  | .obj [("type", .str "end_stream")] => true
  | _ => false

/-- One event consumed by the send loop's `select!`
(src/network.rs:115-161): a `Stop` control message, an audio chunk, or
the closing of the audio channel. -/
inductive SendEvent where
  | ctrlStop
  | audioChunk (chunk : List Int)
  | audioClosed
  deriving Repr, DecidableEq

/-- The send loop (src/network.rs:114-161) applied to an interleaving of
events, returning the frames written to the socket in order (socket
writes are assumed to succeed, per the claim; a failed write breaks the
loop without transmitting). On `Stop` with the flag unset it transmits
`end_stream`, sets the flag, and breaks; on `Stop` with the flag set it
keeps looping; on an audio chunk it transmits one audio frame; on channel
closure it transmits `end_stream` unless the flag is set, then breaks. -/
def runSendLoop : List SendEvent → Bool → List Json
  | [], _ => []
  | .ctrlStop :: rest, sentEnd =>
      if sentEnd then runSendLoop rest sentEnd else [endStreamFrame]
  | .audioChunk c :: rest, sentEnd =>
      audioFrame c :: runSendLoop rest sentEnd
  | .audioClosed :: _, sentEnd =>
      if sentEnd then [] else [endStreamFrame]

theorem isEndStream_endStreamFrame : isEndStream endStreamFrame = true := rfl

theorem isEndStream_audioFrame (c : List Int) :
    isEndStream (audioFrame c) = false := rfl

/-- C2: for every interleaving of audio chunks, `Stop` messages and the
audio-channel closure processed by the send loop (writes succeeding),
the end-of-stream frame is transmitted exactly once as soon as a `Stop`
or the closure occurs, and never more than once. -/
theorem end_stream_exactly_once (evs : List SendEvent) :
    ((SendEvent.ctrlStop ∈ evs ∨ SendEvent.audioClosed ∈ evs) →
      (runSendLoop evs false).countP isEndStream = 1) ∧
    (runSendLoop evs false).countP isEndStream ≤ 1 := by
  induction evs with
  | nil =>
      refine ⟨fun h => ?_, by simp [runSendLoop]⟩
      rcases h with h | h <;> cases h
  | cons e rest ih =>
      cases e with
      | ctrlStop =>
          refine ⟨fun _ => ?_, ?_⟩ <;>
            simp [runSendLoop, List.countP_cons, isEndStream_endStreamFrame]
      | audioChunk c =>
          refine ⟨fun h => ?_, ?_⟩ <;>
            simp only [runSendLoop, List.countP_cons, isEndStream_audioFrame,
              if_neg Bool.false_ne_true, Nat.add_zero]
          · refine ih.1 ?_
            rcases h with h | h <;> rcases List.mem_cons.mp h with h | h <;>
              first
                | exact Or.inl h
                | exact Or.inr h
                | cases h
          · exact ih.2
      | audioClosed =>
          refine ⟨fun _ => ?_, ?_⟩ <;>
            simp [runSendLoop, List.countP_cons, isEndStream_endStreamFrame]

/-- C2 witness: a chunk followed by `Stop` yields exactly one
end-of-stream frame. -/
theorem end_stream_exactly_once_witness :
    (runSendLoop [SendEvent.audioChunk [5], SendEvent.ctrlStop]
      false).countP isEndStream = 1 :=
  (end_stream_exactly_once [SendEvent.audioChunk [5], SendEvent.ctrlStop]).1
    (Or.inl (by simp))

theorem b64Value_b64Char : ∀ n, n < 64 → b64Value (b64Char n) = n := by decide

theorem b64Char_ne_pad : ∀ n, n < 64 → b64Char n ≠ '=' := by decide

theorem base64_roundtrip (bytes : List Nat) (h : ∀ b ∈ bytes, b < 256) :
    base64Decode (base64Encode bytes) = bytes := by
  show base64DecodeChars (base64EncodeChars bytes) = bytes
  induction bytes using base64EncodeChars.induct with
  | case1 => rfl
  | case2 b0 =>
      have hb : b0 < 256 := h b0 (by simp)
      rw [base64EncodeChars, base64DecodeChars, if_pos rfl,
        b64Value_b64Char _ (by omega), b64Value_b64Char _ (by omega)]
      simp only [List.cons.injEq, and_true]
      omega
  | case3 b0 b1 =>
      have hb0 : b0 < 256 := h b0 (by simp)
      have hb1 : b1 < 256 := h b1 (by simp)
      rw [base64EncodeChars, base64DecodeChars,
        if_neg (b64Char_ne_pad (b1 % 16 * 4) (by omega)), if_pos rfl,
        b64Value_b64Char _ (by omega), b64Value_b64Char _ (by omega),
        b64Value_b64Char _ (by omega)]
      simp only [List.cons.injEq, and_true]
      constructor <;> omega
  | case4 b0 b1 b2 rest ih =>
      have hb0 : b0 < 256 := h b0 (by simp)
      have hb1 : b1 < 256 := h b1 (by simp)
      have hb2 : b2 < 256 := h b2 (by simp)
      have hrest : ∀ b ∈ rest, b < 256 := fun b hb => h b (by simp [hb])
      rw [base64EncodeChars, base64DecodeChars,
        if_neg (b64Char_ne_pad (b1 % 16 * 4 + b2 / 64) (by omega)),
        if_neg (b64Char_ne_pad (b2 % 64) (by omega)),
        b64Value_b64Char _ (by omega), b64Value_b64Char _ (by omega),
        b64Value_b64Char _ (by omega), b64Value_b64Char _ (by omega), ih hrest]
      simp only [List.append_eq, List.cons_append, List.nil_append,
        List.cons.injEq, and_true]
      refine ⟨by omega, by omega, by omega⟩

theorem i16_roundtrip (s : Int) (h1 : -32768 ≤ s) (h2 : s ≤ 32767) :
    leBytesToI16 (i16ToLeBytes s) = s ∧ ∀ b ∈ i16ToLeBytes s, b < 256 := by
  constructor
  · simp only [i16ToLeBytes, leBytesToI16]
    split <;> omega
  · intro b hb
    simp only [i16ToLeBytes, List.mem_cons, List.not_mem_nil, or_false] at hb
    rcases hb with hb | hb <;> subst hb <;> omega

/-- C7: each audio chunk consumed from the audio receiver produces exactly
one outbound frame, placed on the wire before the loop continues; its JSON
content is `{"type":"audio","data":d}` where `d` is the standard base64
encoding (verified by decoding back) of the chunk's samples serialized as
little-endian two's-complement byte pairs (verified by reading them back);
including the concrete vector for the chunk `[1, -2]`. -/
theorem audio_frame_format :
    (∀ (chunk : List Int) (rest : List SendEvent) (sentEnd : Bool),
      runSendLoop (SendEvent.audioChunk chunk :: rest) sentEnd
        = audioFrame chunk :: runSendLoop rest sentEnd) ∧
    (∀ chunk : List Int,
      audioFrame chunk = Json.obj [("type", Json.str "audio"),
        ("data", Json.str (base64Encode (chunkLeBytes chunk)))]) ∧
    (∀ bytes : List Nat, (∀ b ∈ bytes, b < 256) →
      base64Decode (base64Encode bytes) = bytes) ∧
    (∀ s : Int, -32768 ≤ s → s ≤ 32767 →
      leBytesToI16 (i16ToLeBytes s) = s ∧ ∀ b ∈ i16ToLeBytes s, b < 256) ∧
    base64Encode (chunkLeBytes [1, -2]) = "AQD+/w==" :=
  ⟨fun _ _ _ => rfl, fun _ => rfl, base64_roundtrip, i16_roundtrip, by decide⟩

/-- C7 witness: the encodings evaluated at concrete inputs. -/
theorem audio_frame_format_witness :
    base64Decode (base64Encode [1, 0, 254, 255]) = [1, 0, 254, 255] ∧
    leBytesToI16 (i16ToLeBytes (-2)) = -2 :=
  ⟨audio_frame_format.2.2.1 [1, 0, 254, 255] (by decide),
   (audio_frame_format.2.2.2.1 (-2) (by decide) (by decide)).1⟩

/-! ### Capture path (src/audio.rs, `process_audio_f32`) -/

/-- `CHUNK_SIZE` (src/audio.rs:11). -/
def CHUNK_SIZE : Nat := 1024

/-- The resampler branch of `process_audio_f32` (src/audio.rs:184-197):
while at least `CHUNK_SIZE` samples are buffered, drain exactly
`CHUNK_SIZE` samples and feed them to the resampler. Returns the drained
chunks in order together with the remaining accumulation buffer (sample
values are opaque to the drain; `f32` samples are represented as `Int`
since only lengths and chunk boundaries matter here, and the resampler
output goes to the ring buffer, never back into this buffer). -/
def drainChunks (buffer : List Int) : List (List Int) × List Int :=
  if _h : CHUNK_SIZE ≤ buffer.length then
    (buffer.take CHUNK_SIZE :: (drainChunks (buffer.drop CHUNK_SIZE)).1,
     (drainChunks (buffer.drop CHUNK_SIZE)).2)
  else ([], buffer)
termination_by buffer.length
decreasing_by
  all_goals simp only [List.length_drop]
  all_goals have hpos : 0 < CHUNK_SIZE := by decide
  all_goals omega

/-- `process_audio_f32`'s effect on the accumulation buffer
(src/audio.rs:178-205): the delivered input is appended, then either all
full `CHUNK_SIZE` multiples are drained through the resampler, or — in
the passthrough case — the whole buffer is drained as one output block.
Returns the emitted blocks and the remaining accumulation buffer. -/
def processAudioBuffer (buffer input : List Int) (hasResampler : Bool) :
    List (List Int) × List Int :=
  if hasResampler then drainChunks (buffer ++ input)
  else ([buffer ++ input], [])

theorem drainChunks_spec (l : List Int) :
    (drainChunks l).2.length < CHUNK_SIZE ∧
    (drainChunks l).1.flatten ++ (drainChunks l).2 = l ∧
    ∀ c ∈ (drainChunks l).1, c.length = CHUNK_SIZE := by
  induction l using drainChunks.induct with
  | case1 l h ih =>
      rw [drainChunks, dif_pos h]
      refine ⟨ih.1, ?_, ?_⟩
      · calc (l.take CHUNK_SIZE :: (drainChunks (l.drop CHUNK_SIZE)).1).flatten
              ++ (drainChunks (l.drop CHUNK_SIZE)).2
            = l.take CHUNK_SIZE
                ++ ((drainChunks (l.drop CHUNK_SIZE)).1.flatten
                    ++ (drainChunks (l.drop CHUNK_SIZE)).2) := by
              simp [List.flatten_cons, List.append_assoc]
          _ = l.take CHUNK_SIZE ++ l.drop CHUNK_SIZE := by rw [ih.2.1]
          _ = l := List.take_append_drop _ _
      · intro c hc
        rcases List.mem_cons.mp hc with hc | hc
        · subst hc
          rw [List.length_take]
          omega
        · exact ih.2.2 c hc
  | case2 l h =>
      rw [drainChunks, dif_neg h]
      refine ⟨by simp; omega, by simp, by simp⟩

/-- C9: on every audio delivery, the capture path processes all fully
buffered `CHUNK_SIZE` multiples: after `process_audio_f32` returns, the
accumulation buffer holds strictly fewer than `CHUNK_SIZE` samples when a
resampler is configured (every emitted chunk being exactly `CHUNK_SIZE`
samples and nothing being lost), and zero samples in the passthrough
case — so the backlog never grows under larger-than-chunk deliveries. -/
theorem capture_backlog_bounded (buffer input : List Int) :
    (processAudioBuffer buffer input true).2.length < CHUNK_SIZE ∧
    (processAudioBuffer buffer input true).1.flatten
        ++ (processAudioBuffer buffer input true).2 = buffer ++ input ∧
    (processAudioBuffer buffer input true).1.all
        (fun c => c.length == CHUNK_SIZE) = true ∧
    (processAudioBuffer buffer input false).2.length = 0 := by
  have h := drainChunks_spec (buffer ++ input)
  refine ⟨h.1, h.2.1, ?_, rfl⟩
  rw [List.all_eq_true]
  intro c hc
  simpa using h.2.2 c hc
